import Mathlib

/-!
# Verification of the brainfuck-to-C transpiler (`src/brainfuck2c.c`)

Shallow embedding of the three-phase pipeline:

* lexer `lex` (source chars → tokens, non-instruction bytes skipped),
* parser `parseLevel` / `parseTokens` (tokens → AST with run-length
  merging of repeated primitive instructions and recursive loop bodies,
  fatal errors on unmatched brackets),
* generator `generate_code` together with `main`'s preamble/postamble
  (AST → the lines of the emitted C program).

The C parser is a `while` loop over the token array with recursive calls
for loop bodies and `exit(EXIT_FAILURE)` on errors; it is embedded as a
recursion on the remaining token list (each loop iteration = one
recursive call on the rest of the tokens) returning `Except`, with an
explicit fuel argument so that the definition is structurally recursive
and computable by the kernel.  `parseTokens` supplies ample fuel (the C
loop consumes at least one token per iteration, so `length + 1` always
suffices; all theorems about `parseLevel` carry the corresponding
`length < fuel` bound).

The C `ASTNode` struct `{TokenType type; int count; ASTNode *children;
int numChildren;}` is embedded with `children : Option (List ASTNode)`:
`none` models a `NULL` children pointer, `some l` an owned array of
`l.length` nodes (so `numChildren` is the length of that list, `0` for
`none`).

`main`'s observable behaviour is modelled by `run`, which returns the
lines printed to stdout, the lines printed to stderr, and the exit
status (`exit(EXIT_FAILURE)` = 1).  On a parse error the C program exits
inside `parseLevel`, before any of `main`'s `printf` calls, so stdout is
empty in that case.
-/

/-- Token types, one per Brainfuck instruction character
(C `enum TokenType`, lines 41-50). -/
inductive TokenType where
  | plus
  | minus
  | next
  | previous
  | output
  | input
  | loop_start
  | loop_end
deriving DecidableEq, Repr

/-- A token: instruction kind plus the byte offset of its character in the
source (C `struct Token`, lines 52-55). -/
structure Token where
  type : TokenType
  pos : Nat
deriving DecidableEq, Repr

/-- The `switch(c)` table of `lex` (lines 77-87): maps a source character to
its token type; `none` for the `default: continue` case. -/
def charToken : Char → Option TokenType
  | '+' => some .plus
  | '-' => some .minus
  | '>' => some .next
  | '<' => some .previous
  | '.' => some .output
  | ',' => some .input
  | '[' => some .loop_start
  | ']' => some .loop_end
  | _ => none

/-- The loop of `lex` (lines 74-99), with `i` the current byte index:
each recognised character yields a token recording its index, others are
skipped. -/
def lexFrom : Nat → List Char → List Token
  | _, [] => []
  | i, c :: cs =>
    match charToken c with
    | some t => ⟨t, i⟩ :: lexFrom (i + 1) cs
    | none => lexFrom (i + 1) cs

/-- Function `lex` (lines 66-102): scan the whole source starting at index 0. -/
def lex (src : List Char) : List Token :=
  lexFrom 0 src

/-- C `struct ASTNode` (lines 107-112).  `children = none` models a `NULL`
children pointer; `children = some l` models an owned array holding
`l.length` nodes (the struct's `numChildren`). -/
inductive ASTNode where
  | mk (type : TokenType) (count : Nat) (children : Option (List ASTNode))

/-- The `type` field of an AST node. -/
def ASTNode.type : ASTNode → TokenType
  | .mk t _ _ => t

/-- The `count` field of an AST node. -/
def ASTNode.count : ASTNode → Nat
  | .mk _ c _ => c

/-- The `children` field of an AST node (`none` = `NULL`). -/
def ASTNode.children : ASTNode → Option (List ASTNode)
  | .mk _ _ ch => ch

/-- Reading a children pointer as a node list: `NULL` holds no nodes. -/
def childList : Option (List ASTNode) → List ASTNode
  | none => []
  | some l => l

/-- The `numChildren` field: number of nodes behind the children pointer
(`0` when it is `NULL`, as set at lines 158 and 184). -/
def ASTNode.numChildren (n : ASTNode) : Nat :=
  (childList n.children).length

/-- The two fatal parse errors of `parseLevel`: unmatched `]` reporting the
token's position (line 141) and unmatched `[` (line 202). -/
inductive ParseError where
  | unmatchedClose (pos : Nat)
  | unmatchedOpen
deriving DecidableEq, Repr

/-- Function `parseLevel` (lines 128-208).  One call parses one nesting level from
the remaining token list; `insideLoop` tells whether a `TOKEN_LOOP_END` is
expected.  The C `while (*index < numTokens)` loop is embedded as a
recursion on the remaining tokens: consuming the head token and
continuing the loop is a recursive call on what is left, and the pair
returned is (nodes of this level, tokens after this level).  `fuel`
decreases at each recursive call; every call consumes at least one token,
so `fuel > length` never reaches the `0` case (the `0` result is a dummy
and is never relied upon: `parseTokens` and all theorems use sufficient
fuel). -/
def parseLevel : Nat → List Token → Bool → Except ParseError (List ASTNode × List Token)
  | 0, _, _ => .error .unmatchedOpen
  | fuel + 1, ts, insideLoop =>
    match ts with
    | [] =>
      -- lines 201-207: token stream exhausted
      if insideLoop then .error .unmatchedOpen else .ok ([], [])
    | t :: rest =>
      match t.type with
      | .loop_end =>
        -- lines 139-147
        if insideLoop then .ok ([], rest) else .error (.unmatchedClose t.pos)
      | .loop_start =>
        -- lines 149-168: parse the loop body, wrap it, continue the level
        match parseLevel fuel rest true with
        | .error e => .error e
        | .ok (children, rest1) =>
          match parseLevel fuel rest1 insideLoop with
          | .error e => .error e
          | .ok (ns, rest2) => .ok (ASTNode.mk .loop_start 0 (some children) :: ns, rest2)
      | ty =>
        -- lines 170-194: merge the maximal run of tokens of kind `ty`
        match parseLevel fuel (rest.dropWhile (fun u => u.type == ty)) insideLoop with
        | .error e => .error e
        | .ok (ns, rest2) =>
          .ok (ASTNode.mk ty (1 + (rest.takeWhile (fun u => u.type == ty)).length) none :: ns, rest2)

/-- Function `parseTokens` (lines 217-220): parse the whole stream at the top level
(`insideLoop = 0`). -/
def parseTokens (ts : List Token) : Except ParseError (List ASTNode) :=
  match parseLevel (ts.length + 1) ts false with
  | .error e => .error e
  | .ok (ns, _) => .ok ns

/-- Function `print_indent` (lines 225-229): four spaces per indentation level. -/
def indentStr (level : Nat) : String :=
  String.join (List.replicate level "    ")

/-- Function `generate_code` (lines 241-298): walk the node list and produce the
emitted C code.  Every `printf` of the C code ends its text with a
newline, so the output is modelled as the list of emitted lines. -/
def generate_code : List ASTNode → Nat → List String
  | [], _ => []
  | ASTNode.mk t c ch :: rest, ind =>
    (match t with
     | .plus => [indentStr ind ++ "*ptr += " ++ toString c ++ ";"]
     | .minus => [indentStr ind ++ "*ptr -= " ++ toString c ++ ";"]
     | .next => [indentStr ind ++ "ptr += " ++ toString c ++ ";"]
     | .previous => [indentStr ind ++ "ptr -= " ++ toString c ++ ";"]
     | .output =>
       if c == 1 then
         [indentStr ind ++ "putchar(*ptr);"]
       else
         [indentStr ind ++ "for (int i = 0; i < " ++ toString c ++ "; i++) \x7b",
          indentStr (ind + 1) ++ "putchar(*ptr);",
          indentStr ind ++ "\x7d"]
     | .input =>
       if c == 1 then
         [indentStr ind ++ "*ptr = getchar();"]
       else
         [indentStr ind ++ "for (int i = 0; i < " ++ toString c ++ "; i++) \x7b",
          indentStr (ind + 1) ++ "*ptr = getchar();",
          indentStr ind ++ "\x7d"]
     | .loop_start =>
       (indentStr ind ++ "while (*ptr) \x7b")
         :: generate_code (childList ch) (ind + 1)
         ++ [indentStr ind ++ "\x7d"]
     | .loop_end => []) ++ generate_code rest ind
termination_by l _ => sizeOf l
decreasing_by
all_goals simp
· cases ch <;> simp [childList] <;> omega

/-- The `#define TAPE_SIZE 30000` constant (line 34): the one configured
tape size.  `preamble` below is parameterised by the configured value;
`run` instantiates it with this default. -/
def TAPE_SIZE : Nat := 30000

/-- The fixed preamble printed by `main` before the generated body
(lines 353-358), as a list of lines, parameterised by the configured
tape size (the value of the `TAPE_SIZE` macro). -/
def preamble (tapeSize : Nat) : List String :=
  ["#include <stdio.h>",
   "#include <stdlib.h>",
   "",
   "#define TAPE_SIZE " ++ toString tapeSize,
   "",
   "int main(void) \x7b",
   "    unsigned char array[TAPE_SIZE] = \x7b0\x7d;",
   "    unsigned char *ptr = array;",
   ""]

/-- The closing lines printed by `main` after the generated body
(lines 362-363). -/
def postamble : List String :=
  ["", "    return 0;", "\x7d"]

/-- The two `fprintf(stderr, ...)` diagnostics of `parseLevel`
(lines 141 and 202). -/
def errMsg : ParseError → String
  | .unmatchedClose p => "Error: Unmatched ']' at position " ++ toString p
  | .unmatchedOpen => "Error: Unmatched '[' detected"

/-- Observable behaviour of `main` (lines 317-369) on a given source text:
(lines printed to stdout, lines printed to stderr, exit status).  On a
parse error the C process exits inside `parseLevel` — after lexing but
before any `printf` to stdout — with `EXIT_FAILURE` (= 1) and the
diagnostic on stderr; on success it prints preamble, generated body
(starting at indentation level 1) and postamble to stdout and returns 0. -/
def run (src : List Char) : List String × List String × Nat :=
  match parseTokens (lex src) with
  | .error e => ([], [errMsg e], 1)
  | .ok ns => (preamble TAPE_SIZE ++ generate_code ns 1 ++ postamble, [], 0)

/-- The six primitive (non-loop) instruction kinds: those merged by the
run-length branch of `parseLevel` (lines 170-172). -/
def isOpKind : TokenType → Bool
  | .loop_start => false
  | .loop_end => false
  | _ => true

/-- The spec's invariant on node sequences: every repeated-op node has
`count ≥ 1`, no two adjacent non-loop nodes share the same kind, and loop
bodies satisfy the same invariant recursively. -/
def invList : List ASTNode → Bool
  | [] => true
  | ASTNode.mk t c ch :: rest =>
    (if t = .loop_start then invList (childList ch) else decide (1 ≤ c))
    && (match rest with
        | [] => true
        | m :: _ => !(isOpKind t && t == m.type))
    && invList rest
termination_by l => sizeOf l
decreasing_by
all_goals simp
· cases ch <;> simp [childList] <;> omega

/-- The spec's shape invariant on the tree: every node is either a loop
node (`type = TOKEN_LOOP_START`, `count = 0`, non-`NULL` children array
whose nodes satisfy the invariant recursively) or a primitive node
(`children = NULL`, hence `numChildren = 0`) whose type is neither
`TOKEN_LOOP_START` nor `TOKEN_LOOP_END`. -/
def shapeList : List ASTNode → Bool
  | [] => true
  | ASTNode.mk t c ch :: rest =>
    (match ch with
     | none => !(t == .loop_start) && !(t == .loop_end)
     | some l => (t == .loop_start) && (c == 0) && shapeList l)
    && shapeList rest
termination_by l => sizeOf l
decreasing_by
all_goals simp
all_goals omega

/-- Flattening a node sequence back to the token-type sequence it was
parsed from: a repeated-op node of count `c` stands for `c` consecutive
tokens of its kind, a loop node for `[`, its body, `]`.  Used to state
that parsing preserves the bracket structure (and hence nesting depth)
of the source exactly. -/
def unparse : List ASTNode → List TokenType
  | [] => []
  | ASTNode.mk t c ch :: rest =>
    (if t = .loop_start then
       TokenType.loop_start :: unparse (childList ch) ++ [TokenType.loop_end]
     else
       List.replicate c t) ++ unparse rest
termination_by l => sizeOf l
decreasing_by
all_goals simp
all_goals cases ch <;> simp [childList] <;> omega

/-- Bracket-balance checker on token-type sequences: `balGo l d` walks `l`
keeping the current loop depth `d`, returns `none` if a `]` occurs at
depth 0, else the final depth.  `balGo l 0 = some 0` says the loop
markers of `l` are equal in number and correctly nested. -/
def balGo : List TokenType → Nat → Option Nat
  | [], d => some d
  | .loop_start :: l, d => balGo l (d + 1)
  | .loop_end :: l, d =>
    match d with
    | 0 => none
    | d + 1 => balGo l d
  | _ :: l, d => balGo l d

/-! ## Basic facts about `parseLevel` -/

/-- Unfolding `parseLevel` at end of input, top level. -/
theorem parseLevel_nil_false (fuel : Nat) :
    parseLevel (fuel + 1) [] false = .ok ([], []) := rfl

/-- Unfolding `parseLevel` at end of input inside a loop: unmatched `[`. -/
theorem parseLevel_nil_true (fuel : Nat) :
    parseLevel (fuel + 1) [] true = .error .unmatchedOpen := rfl

/-- Unfolding `parseLevel` at a `]` inside a loop: the level ends. -/
theorem parseLevel_close_true (fuel : Nat) (t : Token) (rest : List Token)
    (h : t.type = .loop_end) :
    parseLevel (fuel + 1) (t :: rest) true = .ok ([], rest) := by
  obtain ⟨ty, p⟩ := t
  cases ty <;> simp_all [parseLevel]

/-- Unfolding `parseLevel` at a `]` outside any loop: unmatched `]` at that
token's position. -/
theorem parseLevel_close_false (fuel : Nat) (t : Token) (rest : List Token)
    (h : t.type = .loop_end) :
    parseLevel (fuel + 1) (t :: rest) false = .error (.unmatchedClose t.pos) := by
  obtain ⟨ty, p⟩ := t
  cases ty <;> simp_all [parseLevel]

/-- Unfolding `parseLevel` at a `[`. -/
theorem parseLevel_start (fuel : Nat) (t : Token) (rest : List Token) (b : Bool)
    (h : t.type = .loop_start) :
    parseLevel (fuel + 1) (t :: rest) b =
      match parseLevel fuel rest true with
      | .error e => .error e
      | .ok (children, rest1) =>
        match parseLevel fuel rest1 b with
        | .error e => .error e
        | .ok (ns, rest2) => .ok (ASTNode.mk .loop_start 0 (some children) :: ns, rest2) := by
  obtain ⟨ty, p⟩ := t
  cases ty <;> simp_all [parseLevel]

/-- Unfolding `parseLevel` at a primitive token: run-length merge. -/
theorem parseLevel_prim (fuel : Nat) (t : Token) (rest : List Token) (b : Bool)
    (h1 : t.type ≠ .loop_start) (h2 : t.type ≠ .loop_end) :
    parseLevel (fuel + 1) (t :: rest) b =
      match parseLevel fuel (rest.dropWhile (fun u => u.type == t.type)) b with
      | .error e => .error e
      | .ok (ns, rest2) =>
        .ok (ASTNode.mk t.type (1 + (rest.takeWhile (fun u => u.type == t.type)).length) none
               :: ns, rest2) := by
  obtain ⟨ty, p⟩ := t
  cases ty <;> simp_all [parseLevel]

/-- A successful `parseLevel` returns a suffix of its input: it never
leaves more tokens than it was given (the C `*index` only increases). -/
theorem parseLevel_rest_le (fuel : Nat) :
    ∀ (ts : List Token) (b : Bool) (ns : List ASTNode) (rest : List Token),
      parseLevel fuel ts b = .ok (ns, rest) → rest.length ≤ ts.length := by
  induction fuel with
  | zero => intro ts b ns rest h; simp [parseLevel] at h
  | succ fuel ih =>
    intro ts b ns rest h
    match ts with
    | [] =>
      cases b with
      | true => rw [parseLevel_nil_true] at h; simp at h
      | false =>
        rw [parseLevel_nil_false] at h
        simp at h
        obtain ⟨h1, h2⟩ := h
        subst h2
        simp
    | t :: ts' =>
      by_cases hs : t.type = .loop_start
      · rw [parseLevel_start fuel t ts' b hs] at h
        cases h1 : parseLevel fuel ts' true with
        | error e => rw [h1] at h; simp at h
        | ok v =>
          obtain ⟨cs, r1⟩ := v
          rw [h1] at h
          simp only at h
          cases h2 : parseLevel fuel r1 b with
          | error e => rw [h2] at h; simp at h
          | ok w =>
            obtain ⟨ns1, r2⟩ := w
            rw [h2] at h
            simp at h
            have e1 := ih ts' true cs r1 h1
            have e2 := ih r1 b ns1 r2 h2
            obtain ⟨g1, g2⟩ := h
            subst g2
            simp
            omega
      · by_cases he : t.type = .loop_end
        · cases b with
          | false => rw [parseLevel_close_false fuel t ts' he] at h; simp at h
          | true =>
            rw [parseLevel_close_true fuel t ts' he] at h
            simp at h
            obtain ⟨g1, g2⟩ := h
            subst g2
            simp
        · rw [parseLevel_prim fuel t ts' b hs he] at h
          cases h1 : parseLevel fuel (ts'.dropWhile (fun u => u.type == t.type)) b with
          | error e => rw [h1] at h; simp at h
          | ok v =>
            obtain ⟨ns1, r2⟩ := v
            rw [h1] at h
            simp at h
            have e1 := ih _ b ns1 r2 h1
            have e2 : (ts'.dropWhile (fun u => u.type == t.type)).length ≤ ts'.length :=
              (List.dropWhile_sublist _).length_le
            obtain ⟨g1, g2⟩ := h
            subst g2
            simp
            omega

/-! ## Facts about the lexer -/

/-- The kinds of the tokens produced from index `i` on are exactly the
recognised characters, in order. -/
theorem lexFrom_map_type :
    ∀ (src : List Char) (i : Nat),
      (lexFrom i src).map Token.type = src.filterMap charToken := by
  intro src
  induction src with
  | nil => intro i; rfl
  | cons c cs ih =>
    intro i
    cases hc : charToken c <;> simp [lexFrom, hc, List.filterMap_cons, ih]

/-- Every token produced from index `i` on records a position `≥ i`, and
the character at offset `pos - i` of the scanned list is its own
instruction character. -/
theorem lexFrom_pos :
    ∀ (src : List Char) (i : Nat) (t : Token), t ∈ lexFrom i src →
      i ≤ t.pos ∧ ∃ c, src[t.pos - i]? = some c ∧ charToken c = some t.type := by
  intro src
  induction src with
  | nil => intro i t h; simp [lexFrom] at h
  | cons c cs ih =>
    intro i t h
    cases hc : charToken c with
    | none =>
      rw [lexFrom, hc] at h
      obtain ⟨h1, c', h2, h3⟩ := ih (i + 1) t h
      refine ⟨by omega, c', ?_, h3⟩
      have hk : t.pos - i = (t.pos - (i + 1)) + 1 := by omega
      rw [hk]
      simpa using h2
    | some ty =>
      rw [lexFrom, hc] at h
      rcases List.mem_cons.mp h with h | h
      · subst h
        exact ⟨le_refl _, c, by simp, by simp [hc]⟩
      · obtain ⟨h1, c', h2, h3⟩ := ih (i + 1) t h
        refine ⟨by omega, c', ?_, h3⟩
        have hk : t.pos - i = (t.pos - (i + 1)) + 1 := by omega
        rw [hk]
        simpa using h2

/-- Positions of the tokens produced from index `i` on are strictly
increasing. -/
theorem lexFrom_chain :
    ∀ (src : List Char) (i : Nat),
      List.Chain' (· < ·) ((lexFrom i src).map Token.pos) := by
  intro src
  induction src with
  | nil => intro i; simp [lexFrom]
  | cons c cs ih =>
    intro i
    cases hc : charToken c with
    | none => simp only [lexFrom, hc]; exact ih (i + 1)
    | some ty =>
      simp only [lexFrom, hc, List.map_cons]
      rw [List.chain'_cons']
      refine ⟨?_, ih (i + 1)⟩
      intro y hy
      rw [List.head?_map] at hy
      obtain ⟨u, hu, rfl⟩ := Option.map_eq_some'.mp (Option.mem_def.mp hy)
      have := (lexFrom_pos cs (i + 1) u (List.mem_of_mem_head? (Option.mem_def.mpr hu))).1
      omega

/-- Inside a loop, a token list containing no `TOKEN_LOOP_END` at all runs
off the end of the stream (possibly through nested levels) and reports an
unmatched `[`. -/
theorem parseLevel_no_close_inside (fuel : Nat) :
    ∀ ts : List Token, ts.length < fuel → (∀ t ∈ ts, t.type ≠ .loop_end) →
      parseLevel fuel ts true = .error .unmatchedOpen := by
  induction fuel with
  | zero => intro ts h; omega
  | succ fuel ih =>
    intro ts hlen hnc
    match ts with
    | [] => exact parseLevel_nil_true fuel
    | t :: ts' =>
      have hne : t.type ≠ .loop_end := hnc t (by simp)
      by_cases hs : t.type = .loop_start
      · rw [parseLevel_start fuel t ts' true hs]
        have : parseLevel fuel ts' true = .error .unmatchedOpen := by
          refine ih ts' (by simp at hlen; omega) ?_
          intro u hu
          exact hnc u (by simp [hu])
        rw [this]
      · rw [parseLevel_prim fuel t ts' true hs hne]
        have : parseLevel fuel (ts'.dropWhile (fun u => u.type == t.type)) true =
            .error .unmatchedOpen := by
          refine ih _ ?_ ?_
          · have : (ts'.dropWhile (fun u => u.type == t.type)).length ≤ ts'.length :=
              (List.dropWhile_sublist (fun u : Token => u.type == t.type)).length_le
            simp at hlen
            omega
          · intro u hu
            exact hnc u (by
              simp [List.mem_cons]
              exact Or.inr ((List.dropWhile_sublist _).mem hu))
        rw [this]

/-- C1: whenever the parser meets a `TOKEN_LOOP_END` token with the
in-loop flag false, it aborts with an unmatched-close error carrying that
token's byte offset; in particular the input `"]"` fails with the
unmatched-close diagnostic at offset 0, with exit status 1 and nothing on
stdout. -/
theorem claim_unmatched_close :
    (∀ (fuel : Nat) (t : Token) (ts : List Token), t.type = .loop_end →
        parseLevel (fuel + 1) (t :: ts) false = .error (.unmatchedClose t.pos))
    ∧ parseTokens (lex [']']) = .error (.unmatchedClose 0)
    ∧ run [']'] = ([], ["Error: Unmatched ']' at position 0"], 1) :=
  ⟨fun fuel t ts h => parseLevel_close_false fuel t ts h, rfl, rfl⟩

/-- Witness for C1 at a concrete token. -/
theorem claim_unmatched_close_witness :
    parseLevel 1 [⟨.loop_end, 7⟩] false = .error (.unmatchedClose 7) :=
  claim_unmatched_close.1 0 ⟨.loop_end, 7⟩ [] rfl

/-- C4: when the token stream ends while the in-loop flag is still true —
in particular whenever the remaining tokens contain no `TOKEN_LOOP_END`
at all — parsing aborts with an unmatched-open error; in particular the
input `"[+"` fails with the unmatched-open diagnostic, exit status 1 and
nothing on stdout. -/
theorem claim_unmatched_open :
    (∀ fuel : Nat, parseLevel (fuel + 1) [] true = .error .unmatchedOpen)
    ∧ (∀ (fuel : Nat) (ts : List Token), ts.length < fuel →
        (∀ t ∈ ts, t.type ≠ .loop_end) → parseLevel fuel ts true = .error .unmatchedOpen)
    ∧ parseTokens (lex ['[', '+']) = .error .unmatchedOpen
    ∧ run ['[', '+'] = ([], ["Error: Unmatched '[' detected"], 1) :=
  ⟨parseLevel_nil_true, parseLevel_no_close_inside, rfl, rfl⟩

/-- Witness for C4 at a concrete token list. -/
theorem claim_unmatched_open_witness :
    parseLevel 3 [⟨.loop_start, 0⟩, ⟨.plus, 1⟩] true = .error .unmatchedOpen :=
  claim_unmatched_open.2.1 3 [⟨.loop_start, 0⟩, ⟨.plus, 1⟩] (by decide) (by decide)

/-- C6, counterexample: the token sequences for `"a+b+c"` and `"++"` are
not identical — each token carries its source byte offset (positions 1, 3
versus 0, 1). -/
theorem lex_records_differ : lex ['a', '+', 'b', '+', 'c'] ≠ lex ['+', '+'] := by
  decide

/-- C6, amended: the scanner drops every byte outside the 8-character
instruction table, so the token-kind sequence is exactly the table image
of the source; `"a+b+c"` and `"++"` yield identical kind sequences, both
being two `Increment` tokens (the token records themselves differ in
their byte offsets). -/
theorem lex_transparency :
    (∀ src : List Char, (lex src).map Token.type = src.filterMap charToken)
    ∧ (lex ['a', '+', 'b', '+', 'c']).map Token.type = (lex ['+', '+']).map Token.type
    ∧ (lex ['+', '+']).map Token.type = [TokenType.plus, TokenType.plus] :=
  ⟨fun src => lexFrom_map_type src 0, rfl, rfl⟩

/-- C9: every token's `pos` is the byte index of its own character in the
original source (non-instruction bytes included in the count), and the
positions are strictly increasing along the token sequence. -/
theorem lex_positions :
    ∀ src : List Char,
      List.Chain' (· < ·) ((lex src).map Token.pos)
      ∧ ∀ t ∈ lex src, ∃ c, src[t.pos]? = some c ∧ charToken c = some t.type := by
  intro src
  refine ⟨lexFrom_chain src 0, fun t ht => ?_⟩
  obtain ⟨h1, c, h2, h3⟩ := lexFrom_pos src 0 t ht
  exact ⟨c, by simpa using h2, h3⟩

/-- Witness for C9 on `"a+b+"`: its second token is `+` at offset 3, and
offset 3 of the source is indeed `'+'`. -/
theorem lex_positions_witness :
    List.Chain' (· < ·) ((lex ['a', '+', 'b', '+']).map Token.pos)
    ∧ ∃ c, (['a', '+', 'b', '+'])[3]? = some c ∧ charToken c = some TokenType.plus :=
  ⟨(lex_positions ['a', '+', 'b', '+']).1,
   (lex_positions ['a', '+', 'b', '+']).2 ⟨TokenType.plus, 3⟩ (by decide)⟩

/-- C3: the one configured size is `TAPE_SIZE`, default 30000; the
preamble for a configured value `n` contains the `#define TAPE_SIZE n`
line and declares the tape buffer with capacity `TAPE_SIZE`; every
successful invocation emits exactly that preamble (instantiated at the
configured value) before the generated body. -/
theorem tape_size_config :
    TAPE_SIZE = 30000
    ∧ (∀ n : Nat, ("#define TAPE_SIZE " ++ toString n) ∈ preamble n
        ∧ "    unsigned char array[TAPE_SIZE] = \x7b0\x7d;" ∈ preamble n)
    ∧ (∀ (src : List Char) (ns : List ASTNode), parseTokens (lex src) = .ok ns →
        run src = (preamble TAPE_SIZE ++ generate_code ns 1 ++ postamble, [], 0)) := by
  refine ⟨rfl, fun n => ⟨by simp [preamble], by simp [preamble]⟩, fun src ns h => ?_⟩
  simp [run, h]

/-- Witness for C3 on the source `"+"`. -/
theorem tape_size_config_witness :
    run ['+'] =
      (preamble TAPE_SIZE ++ generate_code [ASTNode.mk .plus 1 none] 1 ++ postamble, [], 0) :=
  tape_size_config.2.2 ['+'] [ASTNode.mk .plus 1 none] rfl

/-- C5: emission is per-node, and a Write (`.`) or Read (`,`) node of
count 1 yields exactly one direct `putchar`/`getchar` statement, while a
count `> 1` yields a counted `for`-loop over the literal merged count
around that one statement. -/
theorem write_read_emission :
    (∀ (n : ASTNode) (rest : List ASTNode) (ind : Nat),
        generate_code (n :: rest) ind = generate_code [n] ind ++ generate_code rest ind)
    ∧ (∀ (c ind : Nat),
        generate_code [ASTNode.mk .output c none] ind =
          (if c = 1 then [indentStr ind ++ "putchar(*ptr);"]
           else [indentStr ind ++ "for (int i = 0; i < " ++ toString c ++ "; i++) \x7b",
                 indentStr (ind + 1) ++ "putchar(*ptr);",
                 indentStr ind ++ "\x7d"])
        ∧ generate_code [ASTNode.mk .input c none] ind =
          (if c = 1 then [indentStr ind ++ "*ptr = getchar();"]
           else [indentStr ind ++ "for (int i = 0; i < " ++ toString c ++ "; i++) \x7b",
                 indentStr (ind + 1) ++ "*ptr = getchar();",
                 indentStr ind ++ "\x7d"])) := by
  constructor
  · intro n rest ind
    obtain ⟨t, c, ch⟩ := n
    cases t <;> simp [generate_code]
  · intro c ind
    constructor <;> by_cases h : c = 1 <;> simp [generate_code, h]

/-- C7: on any structural parse error the process prints the diagnostic
line on stderr only, exits with status 1, and prints nothing at all on
stdout. -/
theorem error_stream_only :
    ∀ (src : List Char) (e : ParseError), parseTokens (lex src) = .error e →
      run src = ([], [errMsg e], 1) := by
  intro src e h
  simp [run, h]

/-- Witness for C7 on the source `"]"`. -/
theorem error_stream_only_witness :
    run [']'] = ([], [errMsg (.unmatchedClose 0)], 1) :=
  error_stream_only [']'] (.unmatchedClose 0) rfl

/-- The element a `dropWhile` stops at fails the predicate. -/
theorem dropWhile_head_false {α : Type} (p : α → Bool) (l : List α) (x : α) (xs : List α)
    (h : l.dropWhile p = x :: xs) : p x = false := by
  induction l with
  | nil => simp [List.dropWhile] at h
  | cons a as ih =>
    by_cases hp : p a
    · rw [List.dropWhile_cons_of_pos hp] at h
      exact ih h
    · rw [List.dropWhile_cons_of_neg hp] at h
      cases h
      simpa using hp

/-- Structural soundness of `parseLevel`: every node list it builds (and
every nested loop body) satisfies the merge invariant `invList` and the
shape invariant `shapeList`, and the first node of a level takes its type
from the first token of that level. -/
theorem parseLevel_wellformed (fuel : Nat) :
    ∀ (ts : List Token) (b : Bool) (ns : List ASTNode) (rest : List Token),
      parseLevel fuel ts b = .ok (ns, rest) →
      invList ns = true ∧ shapeList ns = true ∧
      ∀ (n : ASTNode) (ns1 : List ASTNode), ns = n :: ns1 →
        ∃ (t : Token) (ts' : List Token), ts = t :: ts' ∧ n.type = t.type := by
  induction fuel with
  | zero => intro ts b ns rest h; simp [parseLevel] at h
  | succ fuel ih =>
    intro ts b ns rest h
    match ts with
    | [] =>
      cases b with
      | true => rw [parseLevel_nil_true] at h; simp at h
      | false =>
        rw [parseLevel_nil_false] at h
        simp at h
        obtain ⟨h1, h2⟩ := h
        subst h1
        refine ⟨by simp [invList], by simp [shapeList], ?_⟩
        intro n ns1 hcon
        simp at hcon
    | t :: ts' =>
      by_cases hs : t.type = .loop_start
      · rw [parseLevel_start fuel t ts' b hs] at h
        cases h1 : parseLevel fuel ts' true with
        | error e => rw [h1] at h; simp at h
        | ok v =>
          obtain ⟨cs, r1⟩ := v
          rw [h1] at h
          simp only at h
          cases h2 : parseLevel fuel r1 b with
          | error e => rw [h2] at h; simp at h
          | ok w =>
            obtain ⟨ns1, r2⟩ := w
            rw [h2] at h
            simp at h
            obtain ⟨g1, g2⟩ := h
            subst g1
            obtain ⟨i1, s1, _⟩ := ih ts' true cs r1 h1
            obtain ⟨i2, s2, _⟩ := ih r1 b ns1 r2 h2
            refine ⟨?_, ?_, ?_⟩
            · cases ns1 <;> simp [invList, childList, isOpKind, i1, i2]
            · simp [shapeList, s1, s2]
            · intro n ns2 hcon
              simp at hcon
              exact ⟨t, ts', rfl, by simp [← hcon.1, ASTNode.type, hs]⟩
      · by_cases he : t.type = .loop_end
        · cases b with
          | false => rw [parseLevel_close_false fuel t ts' he] at h; simp at h
          | true =>
            rw [parseLevel_close_true fuel t ts' he] at h
            simp at h
            obtain ⟨g1, g2⟩ := h
            subst g1
            refine ⟨by simp [invList], by simp [shapeList], ?_⟩
            intro n ns1 hcon
            simp at hcon
        · rw [parseLevel_prim fuel t ts' b hs he] at h
          cases h1 : parseLevel fuel (ts'.dropWhile (fun u => u.type == t.type)) b with
          | error e => rw [h1] at h; simp at h
          | ok v =>
            obtain ⟨ns1, r2⟩ := v
            rw [h1] at h
            simp at h
            obtain ⟨g1, g2⟩ := h
            subst g1
            obtain ⟨i1, s1, hd1⟩ := ih _ b ns1 r2 h1
            refine ⟨?_, ?_, ?_⟩
            · cases hn : ns1 with
              | nil => simp [invList, hs]
              | cons m ms =>
                obtain ⟨u, us, hu, hmu⟩ := hd1 m ms hn
                have hpu : (u.type == t.type) = false :=
                  dropWhile_head_false _ ts' u us hu
                have : (t.type == m.type) = false := by
                  rw [hmu]
                  rw [beq_eq_false_iff_ne] at hpu ⊢
                  exact fun hh => hpu hh.symm
                subst hn
                simp [invList, hs, this, i1]
            · simp [shapeList, s1, hs, he]
            · intro n ns2 hcon
              simp at hcon
              exact ⟨t, ts', rfl, by simp [← hcon.1, ASTNode.type]⟩

/-- C2: every node list the parser accepts satisfies the merging
invariant — all repeated-op counts are at least 1 and no two adjacent
non-loop nodes (at any nesting level) share the same instruction kind. -/
theorem merge_invariant :
    ∀ (ts : List Token) (ns : List ASTNode), parseTokens ts = .ok ns → invList ns = true := by
  intro ts ns h
  rw [parseTokens] at h
  cases h1 : parseLevel (ts.length + 1) ts false with
  | error e => rw [h1] at h; simp at h
  | ok v =>
    obtain ⟨ns1, r⟩ := v
    rw [h1] at h
    simp at h
    subst h
    exact (parseLevel_wellformed _ ts false ns1 r h1).1

/-- Witness for C2 on the source `"++[-]"`. -/
theorem merge_invariant_witness :
    invList [ASTNode.mk .plus 2 none,
             ASTNode.mk .loop_start 0 (some [ASTNode.mk .minus 1 none])] = true :=
  merge_invariant (lex ['+', '+', '[', '-', ']']) _ rfl

/-- C10: every node the parser produces is either a loop node — type
`TOKEN_LOOP_START`, count 0, non-`NULL` (possibly empty) children
array — or a primitive node with `NULL` children (hence `numChildren`
0); no node, at any depth, has type `TOKEN_LOOP_END`. -/
theorem ast_shape :
    ∀ (ts : List Token) (ns : List ASTNode), parseTokens ts = .ok ns → shapeList ns = true := by
  intro ts ns h
  rw [parseTokens] at h
  cases h1 : parseLevel (ts.length + 1) ts false with
  | error e => rw [h1] at h; simp at h
  | ok v =>
    obtain ⟨ns1, r⟩ := v
    rw [h1] at h
    simp at h
    subst h
    exact (parseLevel_wellformed _ ts false ns1 r h1).2.1

/-- Witness for C10 on the source `"[]>"`. -/
theorem ast_shape_witness :
    shapeList [ASTNode.mk .loop_start 0 (some []), ASTNode.mk .next 1 none] = true :=
  ast_shape (lex ['[', ']', '>']) _ rfl

/-! ## Balance facts, towards C8 -/

/-- A non-bracket kind leaves the balance state unchanged. -/
theorem balGo_prim (t : TokenType) (h1 : t ≠ .loop_start) (h2 : t ≠ .loop_end)
    (l : List TokenType) (d : Nat) : balGo (t :: l) d = balGo l d := by
  cases t <;> simp_all [balGo]

/-- A list without brackets leaves the balance state unchanged. -/
theorem balGo_no_brackets :
    ∀ (l : List TokenType) (d : Nat),
      (∀ x ∈ l, x ≠ .loop_start ∧ x ≠ .loop_end) → balGo l d = some d := by
  intro l
  induction l with
  | nil => intro d h; rfl
  | cons t l ih =>
    intro d h
    obtain ⟨h1, h2⟩ := h t (by simp)
    rw [balGo_prim t h1 h2]
    exact ih d (fun x hx => h x (by simp [hx]))

/-- Unfolding `balGo` at an opening bracket. -/
theorem balGo_open (l : List TokenType) (d : Nat) :
    balGo (.loop_start :: l) d = balGo l (d + 1) := rfl

/-- Unfolding `balGo` at a closing bracket in depth 0: underflow. -/
theorem balGo_close0 (l : List TokenType) : balGo (.loop_end :: l) 0 = none := rfl

/-- Unfolding `balGo` at a closing bracket in positive depth. -/
theorem balGo_close (l : List TokenType) (m : Nat) :
    balGo (.loop_end :: l) (m + 1) = balGo l m := rfl

/-- Function `balGo` is invariant under raising the ambient depth. -/
theorem balGo_shift :
    ∀ (l : List TokenType) (d e k : Nat),
      balGo l d = some e → balGo l (d + k) = some (e + k) := by
  intro l
  induction l with
  | nil => intro d e k h; simp [balGo] at h ⊢; omega
  | cons t l ih =>
    intro d e k h
    by_cases hs : t = .loop_start
    · subst hs
      rw [balGo_open] at h ⊢
      have := ih (d + 1) e k h
      rw [Nat.add_right_comm] at this
      exact this
    · by_cases he : t = .loop_end
      · subst he
        cases d with
        | zero => rw [balGo_close0] at h; exact absurd h (by simp)
        | succ m =>
          rw [balGo_close] at h
          have harr : m + 1 + k = (m + k) + 1 := by omega
          rw [harr, balGo_close]
          exact ih m e k h
      · rw [balGo_prim t hs he] at h ⊢
        exact ih d e k h

/-- Function `balGo` over an append threads the state. -/
theorem balGo_append :
    ∀ (x y : List TokenType) (d : Nat),
      balGo (x ++ y) d =
        match balGo x d with
        | none => none
        | some e => balGo y e := by
  intro x
  induction x with
  | nil => intro y d; simp [balGo]
  | cons t x ih =>
    intro y d
    by_cases hs : t = .loop_start
    · subst hs
      rw [List.cons_append, balGo_open, balGo_open]
      exact ih y (d + 1)
    · by_cases he : t = .loop_end
      · subst he
        cases d with
        | zero => rw [List.cons_append, balGo_close0, balGo_close0]
        | succ m =>
          rw [List.cons_append, balGo_close, balGo_close]
          exact ih y m
      · rw [List.cons_append, balGo_prim t hs he, balGo_prim t hs he]
        exact ih y d

/-- Both `takeWhile` and `dropWhile` pass through an append whose joint
element fails the predicate. -/
theorem takeWhile_dropWhile_append {α : Type} (p : α → Bool) :
    ∀ (a : List α) (x : α) (b : List α), p x = false →
      (a ++ x :: b).takeWhile p = a.takeWhile p
      ∧ (a ++ x :: b).dropWhile p = a.dropWhile p ++ x :: b := by
  intro a
  induction a with
  | nil => intro x b h; simp [List.takeWhile_cons, List.dropWhile_cons, h]
  | cons y a ih =>
    intro x b h
    by_cases hy : p y
    · obtain ⟨i1, i2⟩ := ih x b h
      simp [List.takeWhile_cons, List.dropWhile_cons, hy, i1, i2]
    · simp [List.takeWhile_cons, List.dropWhile_cons, hy]

/-- Splitting a token list that closes one pending bracket: if its types
balance from depth `d + 1` down to 0, it is a balanced segment, then the
closing bracket of the pending loop, then a remainder balancing from
depth `d`. -/
theorem balSplit :
    ∀ (n : Nat) (l : List Token) (d : Nat), l.length ≤ n →
      balGo (l.map Token.type) (d + 1) = some 0 →
      ∃ (u : List Token) (v : Token) (w : List Token),
        l = u ++ v :: w ∧ v.type = .loop_end ∧
        balGo (u.map Token.type) 0 = some 0 ∧ balGo (w.map Token.type) d = some 0 := by
  intro n
  induction n with
  | zero =>
    intro l d hlen hbal
    cases l with
    | nil => simp [balGo] at hbal
    | cons t l' => simp at hlen
  | succ n ih =>
    intro l d hlen hbal
    cases l with
    | nil => simp [balGo] at hbal
    | cons t l' =>
      by_cases he : t.type = .loop_end
      · refine ⟨[], t, l', rfl, he, rfl, ?_⟩
        simpa [he, balGo_close] using hbal
      · by_cases hs : t.type = .loop_start
        · have hb' : balGo (l'.map Token.type) (d + 1 + 1) = some 0 := by
            simpa [hs, balGo_open] using hbal
          obtain ⟨u1, v1, w1, e1, t1, b1, c1⟩ :=
            ih l' (d + 1) (by simp at hlen; omega) hb'
          have hw1 : w1.length ≤ n := by
            have := congrArg List.length e1
            simp at this hlen
            omega
          obtain ⟨u2, v2, w2, e2, t2, b2, c2⟩ := ih w1 d hw1 c1
          refine ⟨t :: u1 ++ v1 :: u2, v2, w2, ?_, t2, ?_, c2⟩
          · rw [e1, e2]
            simp
          · have hshift : balGo (u1.map Token.type) 1 = some 1 := by
              simpa using balGo_shift (u1.map Token.type) 0 0 1 b1
            calc balGo ((t :: u1 ++ v1 :: u2).map Token.type) 0
                = balGo (u1.map Token.type ++ (v1 :: u2).map Token.type) 1 := by
                  rw [List.cons_append, List.map_cons, hs, List.map_append]
                  rfl
              _ = balGo ((v1 :: u2).map Token.type) 1 := by
                  rw [balGo_append, hshift]
              _ = some 0 := by
                  rw [List.map_cons, t1,
                    show balGo (TokenType.loop_end :: u2.map Token.type) 1
                        = balGo (u2.map Token.type) 0 from rfl]
                  exact b2
        · have hb' : balGo (l'.map Token.type) (d + 1) = some 0 := by
            rw [List.map_cons, balGo_prim t.type hs he] at hbal
            exact hbal
          obtain ⟨u1, v1, w1, e1, t1, b1, c1⟩ := ih l' d (by simp at hlen; omega) hb'
          refine ⟨t :: u1, v1, w1, by rw [e1]; simp, t1, ?_, c1⟩
          rw [List.map_cons, balGo_prim t.type hs he]
          exact b1

/-- Dropping a maximal run of one primitive kind preserves balance. -/
theorem balGo_dropRun (ty : TokenType) (hs : ty ≠ .loop_start) (he : ty ≠ .loop_end)
    (l : List Token) (hb : balGo (l.map Token.type) 0 = some 0) :
    balGo ((l.dropWhile (fun u => u.type == ty)).map Token.type) 0 = some 0 := by
  have htake : balGo ((l.takeWhile (fun u => u.type == ty)).map Token.type) 0 = some 0 := by
    apply balGo_no_brackets
    intro x hx
    simp at hx
    obtain ⟨y, hy1, hy2⟩ := hx
    have hty := List.mem_takeWhile_imp hy1
    simp at hty
    rw [← hy2, hty]
    exact ⟨hs, he⟩
  have hsum : balGo ((l.takeWhile (fun u => u.type == ty)).map Token.type
      ++ (l.dropWhile (fun u => u.type == ty)).map Token.type) 0 = some 0 := by
    rw [← List.map_append, List.takeWhile_append_dropWhile]
    exact hb
  rw [balGo_append, htake] at hsum
  simpa using hsum

/-- Unparsing a merged primitive run followed by the unparse of the rest
restores the token kinds of run plus rest. -/
theorem unparse_prim_run (ty : TokenType) (hs : ty ≠ .loop_start)
    (l : List Token) (ns1 : List ASTNode)
    (hu1 : unparse ns1 = (l.dropWhile (fun u => u.type == ty)).map Token.type) :
    unparse (ASTNode.mk ty (1 + (l.takeWhile (fun u => u.type == ty)).length) none :: ns1)
      = ty :: l.map Token.type := by
  have h1 : (l.takeWhile (fun u => u.type == ty)).map Token.type
      = List.replicate ((l.takeWhile (fun u => u.type == ty)).map Token.type).length ty := by
    apply List.eq_replicate_of_mem
    intro b hb
    simp at hb
    obtain ⟨y, hy1, hy2⟩ := hb
    rw [← hy2]
    simpa using List.mem_takeWhile_imp hy1
  rw [List.length_map] at h1
  calc unparse (ASTNode.mk ty (1 + (l.takeWhile (fun u => u.type == ty)).length) none :: ns1)
      = List.replicate (1 + (l.takeWhile (fun u => u.type == ty)).length) ty
          ++ (l.dropWhile (fun u => u.type == ty)).map Token.type := by
        simp [unparse, hs, hu1]
    _ = (ty :: List.replicate (l.takeWhile (fun u => u.type == ty)).length ty)
          ++ (l.dropWhile (fun u => u.type == ty)).map Token.type := by
        rw [Nat.add_comm 1 (l.takeWhile (fun u => u.type == ty)).length, List.replicate_succ]
    _ = ty :: ((l.takeWhile (fun u => u.type == ty)).map Token.type
          ++ (l.dropWhile (fun u => u.type == ty)).map Token.type) := by
        rw [← h1]
        simp
    _ = ty :: l.map Token.type := by
        rw [← List.map_append, List.takeWhile_append_dropWhile]

/-- Unparsing a loop node followed by the unparse of the rest restores
`[`, body, `]`, rest. -/
theorem unparse_loop (cs ns1 : List ASTNode) (a b : List Token)
    (hucs : unparse cs = a.map Token.type) (hu1 : unparse ns1 = b.map Token.type) :
    unparse (ASTNode.mk .loop_start 0 (some cs) :: ns1)
      = TokenType.loop_start :: (a.map Token.type ++ TokenType.loop_end :: b.map Token.type) := by
  simp [unparse, childList, hucs, hu1]

/-- On balanced input `parseLevel` succeeds, consumes everything (up to
the closing bracket of its level) and the parsed nodes unparse to the
exact source token-kind sequence: the tree mirrors the source bracket
structure (hence nesting depth) exactly. -/
theorem parseLevel_balanced (fuel : Nat) :
    ∀ ts : List Token, ts.length < fuel →
      (balGo (ts.map Token.type) 0 = some 0 →
        ∃ ns, parseLevel fuel ts false = .ok (ns, []) ∧ unparse ns = ts.map Token.type)
      ∧ (∀ (u : List Token) (v : Token) (w : List Token),
          ts = u ++ v :: w → v.type = .loop_end →
          balGo (u.map Token.type) 0 = some 0 →
          ∃ ns, parseLevel fuel ts true = .ok (ns, w) ∧ unparse ns = u.map Token.type) := by
  induction fuel with
  | zero => intro ts h; omega
  | succ fuel ih =>
    intro ts hlen
    constructor
    · intro hbal
      cases ts with
      | nil => exact ⟨[], parseLevel_nil_false fuel, by simp [unparse]⟩
      | cons t ts' =>
        by_cases he : t.type = .loop_end
        · rw [List.map_cons, he, balGo_close0] at hbal
          simp at hbal
        · by_cases hs : t.type = .loop_start
          · have hb1 : balGo (ts'.map Token.type) (0 + 1) = some 0 := by
              rw [List.map_cons, hs, balGo_open] at hbal
              exact hbal
            obtain ⟨u, v, w, e1, tv, bu, bw⟩ :=
              balSplit ts'.length ts' 0 (le_refl ts'.length) hb1
            have hlen1 : ts'.length < fuel := by simp at hlen; omega
            obtain ⟨cs, hcs, hucs⟩ := (ih ts' hlen1).2 u v w e1 tv bu
            have hlenw : w.length < fuel := by
              have hle := congrArg List.length e1
              simp at hle hlen
              omega
            obtain ⟨ns1, hns1, hu1⟩ := (ih w hlenw).1 bw
            refine ⟨ASTNode.mk .loop_start 0 (some cs) :: ns1, ?_, ?_⟩
            · rw [parseLevel_start fuel t ts' false hs, hcs]
              simp only [hns1]
            · rw [unparse_loop cs ns1 u w hucs hu1]
              simp [e1, hs, tv]
          · have hb' : balGo (ts'.map Token.type) 0 = some 0 := by
              rw [List.map_cons, balGo_prim t.type hs he] at hbal
              exact hbal
            have hdrop := balGo_dropRun t.type hs he ts' hb'
            have hlend : (ts'.dropWhile (fun x : Token => x.type == t.type)).length < fuel := by
              have hd : (ts'.dropWhile (fun x : Token => x.type == t.type)).length ≤ ts'.length :=
                (List.dropWhile_sublist (fun x : Token => x.type == t.type)).length_le
              simp at hlen
              omega
            obtain ⟨ns1, hns1, hu1⟩ := (ih _ hlend).1 hdrop
            refine ⟨ASTNode.mk t.type
              (1 + (ts'.takeWhile (fun x : Token => x.type == t.type)).length) none :: ns1, ?_, ?_⟩
            · rw [parseLevel_prim fuel t ts' false hs he]
              simp only [hns1]
            · rw [unparse_prim_run t.type hs ts' ns1 hu1]
              simp
    · intro u v w heq tv bu
      subst heq
      cases u with
      | nil =>
        refine ⟨[], ?_, by simp [unparse]⟩
        simpa using parseLevel_close_true fuel v w tv
      | cons t u' =>
        by_cases hts : t.type = .loop_start
        · have hb1 : balGo (u'.map Token.type) (0 + 1) = some 0 := by
            rw [List.map_cons, hts, balGo_open] at bu
            exact bu
          obtain ⟨a, c, b, e1, tc, ba, bb⟩ :=
            balSplit u'.length u' 0 (le_refl u'.length) hb1
          have hdec : u' ++ v :: w = a ++ c :: (b ++ v :: w) := by
            rw [e1]; simp
          have hlen1 : (u' ++ v :: w).length < fuel := by
            simp at hlen ⊢; omega
          obtain ⟨cs, hcs, hucs⟩ := (ih (u' ++ v :: w) hlen1).2 a c (b ++ v :: w) hdec tc ba
          have hlen2 : (b ++ v :: w).length < fuel := by
            have hle := congrArg List.length e1
            simp at hle hlen ⊢
            omega
          obtain ⟨ns1, hns1, hu1⟩ := (ih (b ++ v :: w) hlen2).2 b v w rfl tv bb
          refine ⟨ASTNode.mk .loop_start 0 (some cs) :: ns1, ?_, ?_⟩
          · have hsplit : (t :: u') ++ v :: w = t :: (u' ++ v :: w) := by simp
            rw [hsplit, parseLevel_start fuel t (u' ++ v :: w) true hts, hcs]
            simp only [hns1]
          · rw [unparse_loop cs ns1 a b hucs hu1]
            simp [e1, hts, tc]
        · by_cases hte : t.type = .loop_end
          · rw [List.map_cons, hte, balGo_close0] at bu
            simp at bu
          · have hb' : balGo (u'.map Token.type) 0 = some 0 := by
              rw [List.map_cons, balGo_prim t.type hts hte] at bu
              exact bu
            have hpv : (fun x : Token => x.type == t.type) v = false := by
              simp [tv]
              exact fun hh => hte hh.symm
            obtain ⟨htw, hdw⟩ :=
              takeWhile_dropWhile_append (fun x : Token => x.type == t.type) u' v w hpv
            have hdropu := balGo_dropRun t.type hts hte u' hb'
            have hlen2 :
                ((u'.dropWhile (fun x : Token => x.type == t.type)) ++ v :: w).length < fuel := by
              have hd : (u'.dropWhile (fun x : Token => x.type == t.type)).length ≤ u'.length :=
                (List.dropWhile_sublist (fun x : Token => x.type == t.type)).length_le
              simp at hlen ⊢
              omega
            obtain ⟨ns1, hns1, hu1⟩ :=
              (ih _ hlen2).2 (u'.dropWhile (fun x : Token => x.type == t.type)) v w rfl tv hdropu
            refine ⟨ASTNode.mk t.type
              (1 + (u'.takeWhile (fun x : Token => x.type == t.type)).length) none :: ns1, ?_, ?_⟩
            · have hsplit : (t :: u') ++ v :: w = t :: (u' ++ v :: w) := by simp
              rw [hsplit, parseLevel_prim fuel t (u' ++ v :: w) true hts hte, hdw, htw]
              simp only [hns1]
            · rw [unparse_prim_run t.type hts u' ns1 hu1]
              simp

/-- C8: every token sequence whose loop markers are equal in number and
correctly nested parses successfully, and the resulting tree unparses to
the exact source kind sequence — so each Loop node sits at exactly the
nesting depth of its bracket pair in the source; `[]` yields a Loop node
with an empty body. -/
theorem balanced_parse :
    (∀ ts : List Token, balGo (ts.map Token.type) 0 = some 0 →
      ∃ ns, parseTokens ts = .ok ns ∧ unparse ns = ts.map Token.type)
    ∧ parseTokens (lex ['[', ']']) = .ok [ASTNode.mk .loop_start 0 (some [])] := by
  constructor
  · intro ts hbal
    obtain ⟨ns, hok, hu⟩ := (parseLevel_balanced (ts.length + 1) ts (by omega)).1 hbal
    refine ⟨ns, ?_, hu⟩
    rw [parseTokens, hok]
  · rfl

/-- Witness for C8 on the source `"+[[-]>]"`. -/
theorem balanced_parse_witness :
    ∃ ns, parseTokens (lex ['+', '[', '[', '-', ']', '>', ']']) = .ok ns
      ∧ unparse ns = (lex ['+', '[', '[', '-', ']', '>', ']']).map Token.type :=
  balanced_parse.1 (lex ['+', '[', '[', '-', ']', '>', ']']) (by decide)
